import Mathlib

/-!
Verification of the rhyme-viewer core (`src/script.js`).

Strings are modelled as `List Char` (JavaScript `for..of` iteration and the
kana characters involved are all single UTF-16 units, so code-point lists are
faithful here).  Recursions that the source expresses as scanning loops are
written with an explicit fuel argument equal to the input length, so that all
definitions compute by kernel reduction; fuel-irrelevance lemmas recover the
clean unfolding equations.
-/

namespace RhymeViewer

/-- Code points matched by JavaScript `\s` (ECMA-262 WhiteSpace ∪ LineTerminator),
the same set removed by `String.prototype.trim`. -/
def jsWhitespaceCodes : List Nat :=
  [0x9, 0xa, 0xb, 0xc, 0xd, 0x20, 0xa0, 0x1680,
   0x2000, 0x2001, 0x2002, 0x2003, 0x2004, 0x2005, 0x2006, 0x2007,
   0x2008, 0x2009, 0x200a, 0x2028, 0x2029, 0x202f, 0x205f, 0x3000, 0xfeff]

def isJsSpace (c : Char) : Bool := jsWhitespaceCodes.contains c.toNat

/-- The punctuation characters of the separator class in
`/[\s\n\r、。「」？！()（）\t]/` (src/script.js lines 50 and 170);
`\n`, `\r`, `\t` are already in `\s`. -/
def sepPunct : List Char := ['、', '。', '「', '」', '？', '！', '(', ')', '（', '）']

/-- Membership in the separator character class of the tokenizer regexes. -/
def isSep (c : Char) : Bool := isJsSpace c || sepPunct.contains c

/-- `word.replace(/[ァ-ン]/g, s => String.fromCharCode(s.charCodeAt(0) - 0x60))`
applied to a single character (src/script.js line 26). -/
def toHira (c : Char) : Char :=
  if 0x30A1 ≤ c.toNat ∧ c.toNat ≤ 0x30F3 then Char.ofNat (c.toNat - 0x60) else c

/-- The five membership sets of src/script.js lines 31–35, transcribed
character for character (note: plain き, く, け, こ, ね occur in none of them;
small ゃ is in the あ set and small ょ in the お set; に occurs both in the
い set and, unreachably, in the え set). -/
def rowA : List Char := "あかがさざただなはばぱまやゃらわ".toList

def rowI : List Char := "いぎしじちぢにひびぴみり".toList

def rowU : List Char := "うぐすずつぬふぶぷむゆる".toList

def rowE : List Char := "えげせぜてでにへべぺめれ".toList

def rowO : List Char := "おごそぞとどのほぼぽもよょろを".toList

/-- Vowel classification of one (already hiragana-collapsed) character:
the if/else-if chain of src/script.js lines 31–35; unmatched characters
emit nothing. -/
def classifyVowel (c : Char) : Option Char :=
  if rowA.contains c then some 'あ'
  else if rowI.contains c then some 'い'
  else if rowU.contains c then some 'う'
  else if rowE.contains c then some 'え'
  else if rowO.contains c then some 'お'
  else none

/-- `getVowelPhonetic` (src/script.js lines 20–40). -/
def getVowelPhonetic (word : List Char) : List Char :=
  (word.map toHira).filterMap classifyVowel

/-- `tokenize` (src/script.js lines 47–52):
`text.split(/[\s\n\r、。「」？！()（）\t]+/g).filter(w => w.length > 0)`,
i.e. the maximal runs of non-separator characters, in order.
Fuel-indexed so that it computes; `tokenize` instantiates fuel with the length. -/
def tokenizeF : Nat → List Char → List (List Char)
  | _, [] => []
  | 0, _ :: _ => []
  | fuel + 1, c :: cs =>
    if isSep c then tokenizeF fuel cs
    else ((c :: cs).takeWhile (fun d => !isSep d)) ::
         tokenizeF fuel (cs.dropWhile (fun d => !isSep d))

def tokenize (l : List Char) : List (List Char) := tokenizeF l.length l

/-- `inputText.match(/([\s\n\r、。「」？！()（）\t]+|\S+)/g)` (src/script.js
line 170): alternating maximal runs — a run of separator-class characters when
the next character is in the class, otherwise a maximal run of
non-whitespace characters (the `\S+` branch). -/
def segmentsF : Nat → List Char → List (List Char)
  | _, [] => []
  | 0, _ :: _ => []
  | fuel + 1, c :: cs =>
    if isSep c then
      ((c :: cs).takeWhile isSep) :: segmentsF fuel (cs.dropWhile isSep)
    else
      ((c :: cs).takeWhile (fun d => !isJsSpace d)) ::
        segmentsF fuel (cs.dropWhile (fun d => !isJsSpace d))

def segments (l : List Char) : List (List Char) := segmentsF l.length l
/-- The inner `k` loop of `findRhymes` (src/script.js lines 85–96), expressed
on the reversed signatures: take matching characters while they agree, stop at
the first mismatch or when either list is exhausted. -/
def commonSuffRev : List Char → List Char → List Char
  | a :: as, b :: bs => if a = b then a :: commonSuffRev as bs else []
  | _, _ => []

/-- The matched trailing run of the two signatures, in forward order
(the loop builds `rhymeVowels` by prepending, src/script.js line 91). -/
def commonSuffix (v1 v2 : List Char) : List Char :=
  (commonSuffRev v1.reverse v2.reverse).reverse

/-- One entry of the `rhymes` array (src/script.js lines 100–105). -/
structure Rhyme where
  index1 : Nat
  index2 : Nat
  rhymeLength : Nat
  rhymeVowels : List Char
deriving DecidableEq

/-- The color palette `COLORS` (src/script.js lines 2–11). -/
def COLORS : List String :=
  ["rgba(255, 99, 132, 0.6)",
   "rgba(54, 162, 235, 0.6)",
   "rgba(255, 206, 86, 0.6)",
   "rgba(75, 192, 192, 0.6)",
   "rgba(153, 102, 255, 0.6)",
   "rgba(255, 159, 64, 0.6)",
   "rgba(199, 199, 199, 0.6)",
   "rgba(83, 207, 189, 0.6)"]

/-- The inner `j` loop of `findRhymes` for one `i`: `j` runs from `i + 1`,
stops when `j - i > maxDistance` (the `break`) or `j = words.length`;
pairs whose signatures are shorter than `minLength` are skipped, and a
candidate is emitted when the matched suffix reaches `minLength`. -/
def candidatesFor (words : List (List Char)) (minLength maxDistance i : Nat) :
    List Rhyme :=
  let v1 := getVowelPhonetic (words.getD i [])
  if v1.length < minLength then []
  else
    (List.range' (i + 1) (min (words.length - (i + 1)) maxDistance)).filterMap
      fun j =>
        let v2 := getVowelPhonetic (words.getD j [])
        if v2.length < minLength then none
        else
          let suf := commonSuffix v1 v2
          if minLength ≤ suf.length then some ⟨i, j, suf.length, suf⟩ else none

/-- Stable insertion keeping a descending `rhymeLength` order: a later-discovered
candidate goes after all earlier ones of greater or equal length. -/
def insertDesc (r : Rhyme) : List Rhyme → List Rhyme
  | [] => [r]
  | x :: xs => if r.rhymeLength ≤ x.rhymeLength then x :: insertDesc r xs else r :: x :: xs

/-- `rhymes.sort((a, b) => b.rhymeLength - a.rhymeLength)` (src/script.js
line 111): the unique stable descending order required by ECMAScript. -/
def sortDesc (l : List Rhyme) : List Rhyme := l.foldl (fun acc r => insertDesc r acc) []

/-- `findRhymes` (src/script.js lines 61–113). -/
def findRhymes (words : List (List Char)) (minLength maxDistance : Nat) : List Rhyme :=
  sortDesc (((List.range words.length).map
    (candidatesFor words minLength maxDistance)).flatten)

/-- One accepted pair of the greedy selector, i.e. the data that
`wordColorMap` stores for its two indices (src/script.js lines 144–163). -/
structure Accepted where
  index1 : Nat
  index2 : Nat
  color : String
  vowels : List Char
deriving DecidableEq

/-- `COLORS[colorIndex % COLORS.length]` (src/script.js line 153). -/
def paletteColor (c : Nat) : String := COLORS.getD (c % COLORS.length) ""

/-- The `rhymes.forEach` loop of src/script.js lines 144–163: skip a candidate
when either index is already used, otherwise record both indices with the next
palette color and advance the color cursor. -/
def selectAux : List Rhyme → List Nat → Nat → List Accepted
  | [], _, _ => []
  | r :: rs, used, c =>
    if used.contains r.index1 || used.contains r.index2 then
      selectAux rs used c
    else
      ⟨r.index1, r.index2, paletteColor c, r.rhymeVowels⟩ ::
        selectAux rs (r.index1 :: r.index2 :: used) (c + 1)

def selectPairs (rhymes : List Rhyme) : List Accepted := selectAux rhymes [] 0

/-- `wordColorMap[currentWordIndex]` (src/script.js line 179): the selector
records each index at most once, so lookup in the accepted list is the map. -/
def lookupAssign (acc : List Accepted) (i : Nat) : Option (String × List Char) :=
  (acc.find? fun a => a.index1 == i || a.index2 == i).map fun a => (a.color, a.vowels)

/-- One emission of the renderer: literal text, the `<br>` marker, the neutral
`<span>` wrapper of an unhighlighted word, or the highlight template
(pre-wrapper text, highlighted tail, color, matched vowels). -/
inductive Item where
  | raw : List Char → Item
  | br : Item
  | plain : List Char → Item
  | highlight : List Char → List Char → String → List Char → Item
deriving DecidableEq

/-- `segment.replace(/\n/g, '<br>')` (src/script.js line 201), emission by
emission. -/
def sepItems (s : List Char) : List Item :=
  s.map fun c => if c = '\n' then Item.br else Item.raw [c]

/-- The `separators.forEach` reconstruction walk (src/script.js lines 172–203):
a segment containing at least one word consumes the running word index and is
emitted plain or highlighted; any other segment is emitted as separator text.
`word.substring(word.length - vowelLen)` clamps a negative start to 0, which
is exactly truncated `Nat` subtraction. -/
def renderAux (acc : List Accepted) : List (List Char) → Nat → List Item
  | [], _ => []
  | seg :: rest, counter =>
    if 0 < (tokenize seg).length then
      (match lookupAssign acc counter with
       | some (color, vowels) =>
         Item.highlight (seg.take (seg.length - vowels.length))
           (seg.drop (seg.length - vowels.length)) color vowels
       | none => Item.plain seg) :: renderAux acc rest (counter + 1)
    else
      sepItems seg ++ renderAux acc rest counter

/-- `String.prototype.trim` over the JavaScript whitespace set. -/
def jsTrim (l : List Char) : List Char :=
  ((l.dropWhile isJsSpace).reverse.dropWhile isJsSpace).reverse

/-- `analyzeRhymes` (src/script.js lines 118–207) with the process-global
`colorIndex` threaded explicitly: the input state is returned untouched on the
empty-input early return, and is overwritten by the `colorIndex = 0` reset
(line 141) before selection otherwise.  The first component is the emitted
output, the second the global `colorIndex` after the run. -/
def analyzeRhymesSt (colorIndex0 : Nat) (text : List Char)
    (minLength maxDistance : Nat) : List Item × Nat :=
  if (jsTrim text).isEmpty then ([], colorIndex0)
  else
    let ws := tokenize text
    let rhymes := findRhymes ws minLength maxDistance
    let accepted := selectPairs rhymes
    (renderAux accepted (segments text) 0, accepted.length)

/-- The output of one run, as a pure function of the inputs. -/
def analyzeRhymes (text : List Char) (minLength maxDistance : Nat) : List Item :=
  (analyzeRhymesSt 0 text minLength maxDistance).1

/-- The whitespace the highlight template literal of src/script.js lines
191–193 inserts before the wrapper: the newline after the backtick and the
24 spaces of indentation of line 192. -/
def padTop : List Char := '\n' :: List.replicate 24 ' '

/-- The whitespace the template inserts after the wrapper: the newline ending
line 192 and the 20 spaces of indentation of line 193. -/
def padBot : List Char := '\n' :: List.replicate 20 ' '

/-- The exact markup text of one emission, as the source concatenates it into
`finalHtml`. -/
def markupOf : Item → String
  | .raw s => String.mk s
  | .br => "<br>"
  | .plain w => "<span>" ++ String.mk w ++ "</span>"
  | .highlight pre suf color vowels =>
    String.mk padTop ++ "<span class=\"word-container\">" ++ String.mk pre ++
      "<span class=\"rhyme-highlight\" style=\"background-color: " ++ color ++
      ";\" title=\"韻: " ++ String.mk vowels ++ "\">" ++ String.mk suf ++
      "</span></span>" ++ String.mk padBot

/-- The `finalHtml` string of a run (src/script.js line 206). -/
def finalHtml (text : List Char) (minLength maxDistance : Nat) : String :=
  String.join ((analyzeRhymes text minLength maxDistance).map markupOf)

/-- Strip an emission exactly as the round-trip claim prescribes: turn the
line-break marker back into a newline and strip wrapper markup (tags and
attributes) down to its inner text.  The template padding around a highlight
wrapper is plain text outside any tag, so stripping tags keeps it. -/
def stripItemMarkup : Item → List Char
  | .raw s => s
  | .br => ['\n']
  | .plain w => w
  | .highlight pre suf _ _ => padTop ++ pre ++ suf ++ padBot

def stripMarkup (items : List Item) : List Char := (items.map stripItemMarkup).flatten

/-- Strip an emission down to the source text it carries: like
`stripItemMarkup` but also discarding the decorative template padding of a
highlight emission. -/
def stripItemText : Item → List Char
  | .raw s => s
  | .br => ['\n']
  | .plain w => w
  | .highlight pre suf _ _ => pre ++ suf

def stripText (items : List Item) : List Char := (items.map stripItemText).flatten


/-- The word indices recorded by the selector, in order, with multiplicity. -/
def assignedIndices (acc : List Accepted) : List Nat :=
  (acc.map fun a => [a.index1, a.index2]).flatten

/-- A default entry for positional lookup in the accepted list. -/
def noAccepted : Accepted := ⟨0, 0, "", []⟩


lemma length_dropWhile_le (p : Char → Bool) (l : List Char) :
    (l.dropWhile p).length ≤ l.length := by
  induction l with
  | nil => simp
  | cons c cs ih =>
    by_cases h : p c
    · rw [List.dropWhile_cons_of_pos h]; exact le_trans ih (by simp)
    · rw [List.dropWhile_cons_of_neg h]

lemma tokenizeF_congr :
    ∀ f₁ f₂ l, l.length ≤ f₁ → l.length ≤ f₂ → tokenizeF f₁ l = tokenizeF f₂ l := by
  intro f₁
  induction f₁ with
  | zero =>
    intro f₂ l h₁ _
    have : l = [] := List.length_eq_zero.mp (Nat.le_zero.mp h₁)
    subst this; cases f₂ <;> rfl
  | succ f ih =>
    intro f₂ l h₁ h₂
    cases l with
    | nil => cases f₂ <;> rfl
    | cons c cs =>
      cases f₂ with
      | zero => exact absurd h₂ (by simp)
      | succ f₂' =>
        simp only [tokenizeF]
        by_cases h : isSep c
        · simp only [h, if_true]
          exact ih f₂' cs (by simpa using h₁) (by simpa using h₂)
        · simp only [h, Bool.false_eq_true, if_false]
          have hd : (cs.dropWhile (fun d => !isSep d)).length ≤ cs.length :=
            length_dropWhile_le _ cs
          rw [ih f₂' _ (le_trans hd (by simpa using h₁)) (le_trans hd (by simpa using h₂))]

lemma segmentsF_congr :
    ∀ f₁ f₂ l, l.length ≤ f₁ → l.length ≤ f₂ → segmentsF f₁ l = segmentsF f₂ l := by
  intro f₁
  induction f₁ with
  | zero =>
    intro f₂ l h₁ _
    have : l = [] := List.length_eq_zero.mp (Nat.le_zero.mp h₁)
    subst this; cases f₂ <;> rfl
  | succ f ih =>
    intro f₂ l h₁ h₂
    cases l with
    | nil => cases f₂ <;> rfl
    | cons c cs =>
      cases f₂ with
      | zero => exact absurd h₂ (by simp)
      | succ f₂' =>
        simp only [segmentsF]
        by_cases h : isSep c
        · simp only [h, if_true]
          have hd : (cs.dropWhile isSep).length ≤ cs.length := length_dropWhile_le _ cs
          rw [ih f₂' _ (le_trans hd (by simpa using h₁)) (le_trans hd (by simpa using h₂))]
        · simp only [h, Bool.false_eq_true, if_false]
          have hd : (cs.dropWhile (fun d => !isJsSpace d)).length ≤ cs.length :=
            length_dropWhile_le _ cs
          rw [ih f₂' _ (le_trans hd (by simpa using h₁)) (le_trans hd (by simpa using h₂))]

@[simp] lemma tokenize_nil : tokenize [] = [] := rfl

lemma tokenize_cons_sep {c : Char} (cs : List Char) (h : isSep c = true) :
    tokenize (c :: cs) = tokenize cs := by
  simp only [tokenize, List.length_cons, tokenizeF, h, if_true]

lemma tokenize_cons_word {c : Char} (cs : List Char) (h : isSep c = false) :
    tokenize (c :: cs) =
      ((c :: cs).takeWhile (fun d => !isSep d)) ::
        tokenize (cs.dropWhile (fun d => !isSep d)) := by
  simp only [tokenize, List.length_cons, tokenizeF, h, if_false, Bool.false_eq_true]
  congr 1
  exact tokenizeF_congr _ _ _ (le_trans (length_dropWhile_le _ cs) (by simp)) le_rfl

@[simp] lemma segments_nil : segments [] = [] := rfl

lemma segments_cons_sep {c : Char} (cs : List Char) (h : isSep c = true) :
    segments (c :: cs) =
      ((c :: cs).takeWhile isSep) :: segments (cs.dropWhile isSep) := by
  simp only [segments, List.length_cons, segmentsF, h, if_true]
  congr 1
  exact segmentsF_congr _ _ _ (le_trans (length_dropWhile_le _ cs) (by simp)) le_rfl

lemma segments_cons_word {c : Char} (cs : List Char) (h : isSep c = false) :
    segments (c :: cs) =
      ((c :: cs).takeWhile (fun d => !isJsSpace d)) ::
        segments (cs.dropWhile (fun d => !isJsSpace d)) := by
  simp only [segments, List.length_cons, segmentsF, h, if_false, Bool.false_eq_true]
  congr 1
  exact segmentsF_congr _ _ _ (le_trans (length_dropWhile_le _ cs) (by simp)) le_rfl

lemma isSep_of_isJsSpace {c : Char} (h : isJsSpace c = true) : isSep c = true := by
  simp [isSep, h]

lemma not_isJsSpace_of_not_isSep {c : Char} (h : isSep c = false) : isJsSpace c = false := by
  simp only [isSep, Bool.or_eq_false_iff] at h
  exact h.1

lemma tokenize_all_sep : ∀ l : List Char, (∀ c ∈ l, isSep c = true) → tokenize l = [] := by
  intro l
  induction l with
  | nil => simp
  | cons c cs ih =>
    intro h
    rw [tokenize_cons_sep cs (h c (by simp))]
    exact ih fun d hd => h d (by simp [hd])

lemma tokenize_dropWhile_sep : ∀ l : List Char, tokenize (l.dropWhile isSep) = tokenize l := by
  intro l
  induction l with
  | nil => simp
  | cons c cs ih =>
    by_cases h : isSep c
    · rw [List.dropWhile_cons_of_pos h, tokenize_cons_sep cs h]
      exact ih
    · rw [List.dropWhile_cons_of_neg h]

lemma takeWhile_append_head_false {q : Char → Bool} {b : List Char}
    (hb : ∀ c, b.head? = some c → q c = false) :
    ∀ a : List Char, (a ++ b).takeWhile q = a.takeWhile q := by
  intro a
  induction a with
  | nil =>
    cases b with
    | nil => rfl
    | cons c cs => simp [List.takeWhile_cons, hb c rfl]
  | cons x xs ih =>
    by_cases h : q x
    · simp [List.takeWhile_cons, h, ih]
    · simp [List.takeWhile_cons, h]

lemma dropWhile_append_head_false {q : Char → Bool} {b : List Char}
    (hb : ∀ c, b.head? = some c → q c = false) :
    ∀ a : List Char, (a ++ b).dropWhile q = a.dropWhile q ++ b := by
  intro a
  induction a with
  | nil =>
    cases b with
    | nil => rfl
    | cons c cs => simp [List.dropWhile_cons, hb c rfl]
  | cons x xs ih =>
    by_cases h : q x
    · simp [List.dropWhile_cons, h, ih]
    · simp [List.dropWhile_cons, h]

lemma head?_dropWhile_false {p : Char → Bool} {l : List Char} {c : Char}
    (h : (l.dropWhile p).head? = some c) : p c = false := by
  have := List.head?_dropWhile_not p l
  rw [h] at this
  exact this

/-- Splitting into words distributes over an append whose right part starts
with a separator character. -/
lemma tokenize_append_sep :
    ∀ (n : Nat) (a b : List Char), a.length ≤ n →
      (∀ c, b.head? = some c → isSep c = true) →
      tokenize (a ++ b) = tokenize a ++ tokenize b := by
  intro n
  induction n with
  | zero =>
    intro a b ha _
    have : a = [] := List.length_eq_zero.mp (Nat.le_zero.mp ha)
    subst this; simp
  | succ m ih =>
    intro a b ha hb
    cases a with
    | nil => simp
    | cons c cs =>
      by_cases h : isSep c
      · rw [List.cons_append, tokenize_cons_sep _ h, tokenize_cons_sep _ h,
            ih cs b (by simpa using ha) hb]
      · have hq : ∀ d, b.head? = some d → (fun d => !isSep d) d = false := by
          intro d hd; simp [hb d hd]
        rw [List.cons_append, tokenize_cons_word _ (Bool.not_eq_true _ ▸ h),
            tokenize_cons_word _ (Bool.not_eq_true _ ▸ h)]
        have h₁ : (c :: (cs ++ b)).takeWhile (fun d => !isSep d)
            = (c :: cs).takeWhile (fun d => !isSep d) := by
          have := takeWhile_append_head_false hq (c :: cs)
          simpa using this
        have h₂ : (cs ++ b).dropWhile (fun d => !isSep d)
            = cs.dropWhile (fun d => !isSep d) ++ b :=
          dropWhile_append_head_false hq cs
        rw [h₁, h₂,
            ih (cs.dropWhile (fun d => !isSep d)) b
              (le_trans (length_dropWhile_le _ cs) (by simpa using ha)) hb]
        simp

/-- The segments of the rendering regex concatenate back to the input text. -/
lemma segments_flatten : ∀ (n : Nat) (l : List Char), l.length ≤ n →
    (segments l).flatten = l := by
  intro n
  induction n with
  | zero =>
    intro l h
    have : l = [] := List.length_eq_zero.mp (Nat.le_zero.mp h)
    subst this; simp
  | succ m ih =>
    intro l h
    cases l with
    | nil => simp
    | cons c cs =>
      by_cases hc : isSep c
      · rw [segments_cons_sep cs hc, List.flatten_cons,
            ih _ (le_trans (length_dropWhile_le _ cs) (by simpa using h))]
        rw [List.takeWhile_cons, if_pos hc, List.cons_append,
            List.takeWhile_append_dropWhile]
      · have hw : (fun d => !isJsSpace d) c = true := by
          simp [not_isJsSpace_of_not_isSep (Bool.not_eq_true _ ▸ hc)]
        rw [segments_cons_word cs (Bool.not_eq_true _ ▸ hc), List.flatten_cons,
            ih _ (le_trans (length_dropWhile_le _ cs) (by simpa using h))]
        rw [List.takeWhile_cons, if_pos hw, List.cons_append,
            List.takeWhile_append_dropWhile]

lemma segments_flatten' (l : List Char) : (segments l).flatten = l :=
  segments_flatten l.length l le_rfl

/-- Tokenizing segment-by-segment and flattening gives exactly the word list
of the whole text. -/
lemma tokenize_segments_flatten : ∀ (n : Nat) (l : List Char), l.length ≤ n →
    ((segments l).map tokenize).flatten = tokenize l := by
  intro n
  induction n with
  | zero =>
    intro l h
    have : l = [] := List.length_eq_zero.mp (Nat.le_zero.mp h)
    subst this; simp
  | succ m ih =>
    intro l h
    cases l with
    | nil => simp
    | cons c cs =>
      by_cases hc : isSep c
      · rw [segments_cons_sep cs hc, List.map_cons, List.flatten_cons,
            ih _ (le_trans (length_dropWhile_le _ cs) (by simpa using h))]
        have h₁ : tokenize ((c :: cs).takeWhile isSep) = [] :=
          tokenize_all_sep _ (fun d hd => List.mem_takeWhile_imp hd)
        have h₂ : tokenize (cs.dropWhile isSep) = tokenize (c :: cs) := by
          have := tokenize_dropWhile_sep (c :: cs)
          rwa [List.dropWhile_cons_of_pos hc] at this
        rw [h₁, h₂, List.nil_append]
      · have hcf : isSep c = false := Bool.not_eq_true _ ▸ hc
        have hw : (fun d => !isJsSpace d) c = true := by
          simp [not_isJsSpace_of_not_isSep hcf]
        rw [segments_cons_word cs hcf, List.map_cons, List.flatten_cons,
            ih _ (le_trans (length_dropWhile_le _ cs) (by simpa using h))]
        have hsplit : (c :: cs) =
            ((c :: cs).takeWhile (fun d => !isJsSpace d)) ++
              (cs.dropWhile (fun d => !isJsSpace d)) := by
          conv_lhs => rw [← List.takeWhile_append_dropWhile (fun d => !isJsSpace d) (c :: cs)]
          rw [List.takeWhile_cons, if_pos hw, List.dropWhile_cons, if_pos hw]
        have hb : ∀ d, (cs.dropWhile (fun d => !isJsSpace d)).head? = some d →
            isSep d = true := by
          intro d hd
          have hsp : isJsSpace d = true := by simpa using head?_dropWhile_false hd
          exact isSep_of_isJsSpace hsp
        conv_rhs => rw [hsplit]
        rw [tokenize_append_sep ((c :: cs).takeWhile (fun d => !isJsSpace d)).length _ _
              le_rfl hb]

lemma tokenize_segments_flatten' (l : List Char) :
    ((segments l).map tokenize).flatten = tokenize l :=
  tokenize_segments_flatten l.length l le_rfl

lemma commonSuffRev_pre_left : ∀ a b : List Char, commonSuffRev a b <+: a := by
  intro a
  induction a with
  | nil => intro b; cases b <;> exact List.nil_prefix
  | cons x xs ih =>
    intro b
    cases b with
    | nil => exact List.nil_prefix
    | cons y ys =>
      by_cases h : x = y
      · rw [commonSuffRev, if_pos h]
        obtain ⟨t, ht⟩ := ih ys
        exact ⟨t, by rw [List.cons_append, ht]⟩
      · rw [commonSuffRev, if_neg h]
        exact List.nil_prefix

lemma commonSuffRev_pre_right : ∀ a b : List Char, commonSuffRev a b <+: b := by
  intro a
  induction a with
  | nil => intro b; cases b <;> exact List.nil_prefix
  | cons x xs ih =>
    intro b
    cases b with
    | nil => exact List.nil_prefix
    | cons y ys =>
      by_cases h : x = y
      · rw [commonSuffRev, if_pos h, h]
        obtain ⟨t, ht⟩ := ih ys
        exact ⟨t, by rw [List.cons_append, ht]⟩
      · rw [commonSuffRev, if_neg h]
        exact List.nil_prefix

lemma commonSuffix_suf_left (v1 v2 : List Char) : commonSuffix v1 v2 <:+ v1 := by
  have h := List.reverse_suffix.mpr (commonSuffRev_pre_left v1.reverse v2.reverse)
  rwa [List.reverse_reverse] at h

lemma commonSuffix_suf_right (v1 v2 : List Char) : commonSuffix v1 v2 <:+ v2 := by
  have h := List.reverse_suffix.mpr (commonSuffRev_pre_right v1.reverse v2.reverse)
  rwa [List.reverse_reverse] at h

lemma length_commonSuffix_left (v1 v2 : List Char) :
    (commonSuffix v1 v2).length ≤ v1.length :=
  (commonSuffix_suf_left v1 v2).length_le

lemma length_commonSuffix_right (v1 v2 : List Char) :
    (commonSuffix v1 v2).length ≤ v2.length :=
  (commonSuffix_suf_right v1 v2).length_le

/-- A suffix of a list is the `drop` at the complementary position. -/
lemma eq_drop_of_suf {s v : List Char} (h : s <:+ v) :
    s = v.drop (v.length - s.length) := by
  obtain ⟨t, rfl⟩ := h
  have hl : (t ++ s).length - s.length = t.length := by simp
  rw [hl, List.drop_left]

lemma mem_insertDesc {x r : Rhyme} : ∀ ys, x ∈ insertDesc r ys ↔ x = r ∨ x ∈ ys := by
  intro ys
  induction ys with
  | nil => simp [insertDesc]
  | cons y ys ih =>
    by_cases h : r.rhymeLength ≤ y.rhymeLength
    · rw [insertDesc, if_pos h]
      simp only [List.mem_cons, ih]
      tauto
    · rw [insertDesc, if_neg h]
      simp only [List.mem_cons]

lemma mem_foldl_insertDesc {x : Rhyme} :
    ∀ (l : List Rhyme) (acc : List Rhyme),
      x ∈ l.foldl (fun a r => insertDesc r a) acc ↔ x ∈ acc ∨ x ∈ l := by
  intro l
  induction l with
  | nil => simp
  | cons r rs ih =>
    intro acc
    rw [List.foldl_cons, ih, mem_insertDesc]
    simp only [List.mem_cons]
    tauto

lemma mem_sortDesc {x : Rhyme} {l : List Rhyme} : x ∈ sortDesc l ↔ x ∈ l := by
  rw [sortDesc, mem_foldl_insertDesc]
  simp

/-- All the facts the loops of `findRhymes` guarantee for an emitted candidate. -/
lemma findRhymes_spec {words : List (List Char)} {m d : Nat} {r : Rhyme}
    (h : r ∈ findRhymes words m d) :
    r.index1 < r.index2 ∧ r.index2 ≤ r.index1 + d ∧ r.index2 < words.length ∧
      m ≤ (getVowelPhonetic (words.getD r.index1 [])).length ∧
      m ≤ (getVowelPhonetic (words.getD r.index2 [])).length ∧
      m ≤ r.rhymeLength ∧
      r.rhymeVowels =
        commonSuffix (getVowelPhonetic (words.getD r.index1 []))
          (getVowelPhonetic (words.getD r.index2 [])) ∧
      r.rhymeLength = r.rhymeVowels.length := by
  rw [findRhymes, mem_sortDesc, List.mem_flatten] at h
  obtain ⟨cand, hcand, hr⟩ := h
  rw [List.mem_map] at hcand
  obtain ⟨i, hi, rfl⟩ := hcand
  rw [List.mem_range] at hi
  rw [candidatesFor] at hr
  by_cases h1 : (getVowelPhonetic (words.getD i [])).length < m
  · simp only [h1, if_true] at hr
    exact absurd hr (List.not_mem_nil _)
  · simp only [h1, if_false] at hr
    rw [List.mem_filterMap] at hr
    obtain ⟨j, hj, hsome⟩ := hr
    rw [List.mem_range'_1] at hj
    by_cases h2 : (getVowelPhonetic (words.getD j [])).length < m
    · simp only [h2, if_true] at hsome
      exact absurd hsome (by simp)
    · simp only [h2, if_false] at hsome
      by_cases h3 : m ≤ (commonSuffix (getVowelPhonetic (words.getD i []))
          (getVowelPhonetic (words.getD j []))).length
      · simp only [h3, if_true, Option.some_inj] at hsome
        subst hsome
        refine ⟨hj.1, ?_, ?_, Nat.le_of_not_lt h1, Nat.le_of_not_lt h2, h3, rfl, rfl⟩
        · show j ≤ i + d
          have h4 := hj.2
          have h5 : min (words.length - (i + 1)) d ≤ d := Nat.min_le_right _ _
          omega
        · show j < words.length
          have h4 := hj.2
          have h5 : min (words.length - (i + 1)) d ≤ words.length - (i + 1) :=
            Nat.min_le_left _ _
          omega
      · simp only [h3, if_false] at hsome
        exact absurd hsome (by simp)


lemma selectAux_invariant :
    ∀ (rhymes : List Rhyme) (used : List Nat) (c : Nat),
      (∀ r ∈ rhymes, r.index1 ≠ r.index2) →
      (assignedIndices (selectAux rhymes used c)).Nodup ∧
        ∀ i ∈ assignedIndices (selectAux rhymes used c), i ∉ used := by
  intro rhymes
  induction rhymes with
  | nil => intro used c _; simp [selectAux, assignedIndices]
  | cons r rs ih =>
    intro used c hne
    by_cases hused : (used.contains r.index1 || used.contains r.index2) = true
    · rw [selectAux, if_pos hused]
      exact ih used c fun x hx => hne x (by simp [hx])
    · rw [selectAux, if_neg hused]
      have hu : r.index1 ∉ used ∧ r.index2 ∉ used := by
        simpa using hused
      obtain ⟨hrest, hfresh⟩ :=
        ih (r.index1 :: r.index2 :: used) (c + 1) fun x hx => hne x (by simp [hx])
      have h12 : r.index1 ≠ r.index2 := hne r (by simp)
      constructor
      · simp only [assignedIndices, List.map_cons, List.flatten_cons, List.cons_append,
          List.nil_append, List.nodup_cons]
        refine ⟨?_, ?_, hrest⟩
        · intro hmem
          rcases List.mem_cons.mp hmem with h | h
          · exact h12 h
          · exact hfresh _ h (by simp)
        · intro hmem
          exact hfresh _ hmem (by simp)
      · intro i hi
        simp only [assignedIndices, List.map_cons, List.flatten_cons, List.cons_append,
          List.nil_append, List.mem_cons] at hi
        rcases hi with rfl | rfl | hi
        · exact hu.1
        · exact hu.2
        · intro hiu
          exact hfresh i hi (by simp [hiu])

lemma selectAux_color :
    ∀ (rhymes : List Rhyme) (used : List Nat) (c k : Nat),
      k < (selectAux rhymes used c).length →
      ((selectAux rhymes used c).getD k noAccepted).color = paletteColor (c + k) := by
  intro rhymes
  induction rhymes with
  | nil => intro used c k h; simp [selectAux] at h
  | cons r rs ih =>
    intro used c k h
    by_cases hused : (used.contains r.index1 || used.contains r.index2) = true
    · have hrw : selectAux (r :: rs) used c = selectAux rs used c := by
        rw [selectAux, if_pos hused]
      rw [hrw] at h ⊢
      exact ih used c k h
    · have hrw : selectAux (r :: rs) used c =
          ⟨r.index1, r.index2, paletteColor c, r.rhymeVowels⟩ ::
            selectAux rs (r.index1 :: r.index2 :: used) (c + 1) := by
        rw [selectAux, if_neg hused]
      rw [hrw] at h ⊢
      cases k with
      | zero => simp
      | succ k' =>
        have h' : k' < (selectAux rs (r.index1 :: r.index2 :: used) (c + 1)).length := by
          simpa using h
        have hcol := ih (r.index1 :: r.index2 :: used) (c + 1) k' h'
        rw [List.getD_cons_succ, hcol]
        congr 1
        omega

lemma stripText_append (a b : List Item) :
    stripText (a ++ b) = stripText a ++ stripText b := by
  simp [stripText, List.map_append, List.flatten_append]

lemma stripText_sepItems : ∀ s : List Char, stripText (sepItems s) = s := by
  intro s
  induction s with
  | nil => rfl
  | cons c cs ih =>
    by_cases h : c = '\n'
    · simp only [sepItems, List.map_cons, if_pos h, stripText, stripItemText,
        List.flatten_cons] at *
      rw [ih, h]
      rfl
    · simp only [sepItems, List.map_cons, if_neg h, stripText, stripItemText,
        List.flatten_cons] at *
      rw [ih]
      rfl

/-- The renderer walk reconstructs the segment texts verbatim: each word
segment is emitted as prefix plus highlighted tail (together the segment) or
plain, each separator segment character for character. -/
lemma stripText_renderAux (acc : List Accepted) :
    ∀ (segs : List (List Char)) (k : Nat),
      stripText (renderAux acc segs k) = segs.flatten := by
  intro segs
  induction segs with
  | nil => intro k; rfl
  | cons seg rest ih =>
    intro k
    rw [renderAux]
    by_cases h : 0 < (tokenize seg).length
    · rw [if_pos h]
      cases hl : lookupAssign acc k with
      | none =>
        simp only [stripText, List.map_cons, List.flatten_cons, stripItemText]
        rw [show ((renderAux acc rest (k+1)).map stripItemText).flatten
              = stripText (renderAux acc rest (k+1)) from rfl, ih (k+1)]
      | some cv =>
        obtain ⟨color, vowels⟩ := cv
        simp only [stripText, List.map_cons, List.flatten_cons, stripItemText]
        rw [show ((renderAux acc rest (k+1)).map stripItemText).flatten
              = stripText (renderAux acc rest (k+1)) from rfl, ih (k+1),
            List.take_append_drop]
    · rw [if_neg h, stripText_append, stripText_sepItems, ih k, List.flatten_cons]

lemma analyzeRhymes_eq_render {text : List Char} (m d : Nat)
    (h : jsTrim text ≠ []) :
    analyzeRhymes text m d =
      renderAux (selectPairs (findRhymes (tokenize text) m d)) (segments text) 0 := by
  have hne : (jsTrim text).isEmpty = false := by
    cases he : (jsTrim text).isEmpty
    · rfl
    · exact absurd (List.isEmpty_iff.mp he) h
  simp [analyzeRhymes, analyzeRhymesSt, hne]

lemma getVowelPhonetic_length_le (w : List Char) :
    (getVowelPhonetic w).length ≤ w.length := by
  have h := List.length_filterMap_le classifyVowel (w.map toHira)
  simpa [getVowelPhonetic] using h

lemma takeWhile_all {p : Char → Bool} :
    ∀ l : List Char, (∀ c ∈ l, p c = true) → l.takeWhile p = l := by
  intro l
  induction l with
  | nil => intro _; rfl
  | cons c cs ih =>
    intro h
    rw [List.takeWhile_cons, if_pos (h c (by simp)), ih fun d hd => h d (by simp [hd])]

lemma dropWhile_all {p : Char → Bool} :
    ∀ l : List Char, (∀ c ∈ l, p c = true) → l.dropWhile p = [] := by
  intro l
  induction l with
  | nil => intro _; rfl
  | cons c cs ih =>
    intro h
    rw [List.dropWhile_cons_of_pos (h c (by simp)), ih fun d hd => h d (by simp [hd])]

lemma segments_all_sep {l : List Char} (h : ∀ c ∈ l, isSep c = true) (hne : l ≠ []) :
    segments l = [l] := by
  cases l with
  | nil => exact absurd rfl hne
  | cons c cs =>
    rw [segments_cons_sep cs (h c (by simp)),
        takeWhile_all _ h, dropWhile_all _ fun d hd => h d (by simp [hd]), segments_nil]

lemma jsTrim_all_space {l : List Char} (h : ∀ c ∈ l, isJsSpace c = true) :
    jsTrim l = [] := by
  rw [jsTrim, dropWhile_all _ h]
  rfl

lemma findRhymes_nil (m d : Nat) : findRhymes [] m d = [] := rfl

/-- Claim C1 (counterexample): stripping the rendered output exactly as the
claim prescribes — line-break markers back to newlines and wrapper markup down
to its inner text — does not return the input: for a run with a highlighted
pair, the decorative whitespace the highlight template inserts around the
wrapper survives the stripping; and for whitespace-only input the early
return emits nothing at all. -/
theorem c1_roundtrip_counterexample :
    stripMarkup (analyzeRhymes "かさ たさ".toList 2 5) ≠ "かさ たさ".toList ∧
    stripMarkup (analyzeRhymes " ".toList 2 5) ≠ " ".toList := by
  decide

/-- Claim C1 (amended): for every input whose trim is nonempty and any
parameters, stripping each emission down to the source text it carries —
inner text of highlight and neutral wrappers without the template's padding,
line-break markers back to newlines — reproduces the input character for
character. -/
theorem c1_roundtrip_amended (text : List Char) (m d : Nat)
    (h : jsTrim text ≠ []) :
    stripText (analyzeRhymes text m d) = text := by
  rw [analyzeRhymes_eq_render m d h, stripText_renderAux, segments_flatten']

/-- Witness for `c1_roundtrip_amended` at a run that highlights a pair. -/
theorem c1_roundtrip_amended_witness :
    jsTrim "かさ たさ".toList ≠ [] ∧
    stripText (analyzeRhymes "かさ たさ".toList 2 5) = "かさ たさ".toList :=
  ⟨by decide, c1_roundtrip_amended "かさ たさ".toList 2 5 (by decide)⟩

/-- Claim C2 (code bug): the classification sets do not cover the full
syllabary and do not drop all small kana.  Plain き, く, け, こ and ね are in
no set and are dropped (their voiced counterparts ぎ, ぐ, げ, ご are
classified), while small ゃ emits あ and small ょ emits お even though the
code's own comment says the small marks are skipped; ん, っ and ゅ are
dropped as documented. -/
theorem c2_vowel_table_divergence :
    getVowelPhonetic "き".toList = [] ∧
    getVowelPhonetic "く".toList = [] ∧
    getVowelPhonetic "け".toList = [] ∧
    getVowelPhonetic "こ".toList = [] ∧
    getVowelPhonetic "ね".toList = [] ∧
    getVowelPhonetic "ゃ".toList = "あ".toList ∧
    getVowelPhonetic "ょ".toList = "お".toList ∧
    getVowelPhonetic "ん".toList = [] ∧
    getVowelPhonetic "っ".toList = [] ∧
    getVowelPhonetic "ゅ".toList = [] ∧
    getVowelPhonetic "ぎぐげご".toList = "いうえお".toList := by
  decide

/-- Claim C3 (counterexample): a non-separator segment need not contain
exactly one word — on input `a、b` the `\S+` branch produces the single
segment `a、b`, which the word test splits into two words, so the renderer's
counter consumes one index where `findRhymes` indexed two words. -/
theorem c3_segment_multiword_counterexample :
    segments "a、b".toList = ["a、b".toList] ∧
    tokenize "a、b".toList = ["a".toList, "b".toList] := by
  decide

/-- Claim C3 (amended): applying the word test to each segment in order and
concatenating yields exactly the word sequence of the whole text; a
non-separator segment always contains at least one word but may contain
several (when punctuation separators sit inside a whitespace-free run), in
which case the renderer's counter diverges from the matcher's indexing. -/
theorem c3_tokenize_segments_amended (text : List Char) :
    ((segments text).map tokenize).flatten = tokenize text :=
  tokenize_segments_flatten' text

/-- Claim C4 (code bug in the signature derivation, downstream facts intact):
`getVowelPhonetic "キャンバス"` is `ああう`, not the claimed `いあう` — き is
dropped (it is in no classification set) and small ゃ emits あ — yet the
matcher still emits exactly the one candidate (0, 1, 2, `あう`) and the
renderer highlights the final two characters of both words in the same
palette color. -/
theorem c4_scenario_divergence :
    getVowelPhonetic "アドバンス".toList = "あおあう".toList ∧
    getVowelPhonetic "キャンバス".toList = "ああう".toList ∧
    getVowelPhonetic "キャンバス".toList ≠ "いあう".toList ∧
    findRhymes ["アドバンス".toList, "キャンバス".toList] 2 5 =
      [⟨0, 1, 2, "あう".toList⟩] ∧
    analyzeRhymes "アドバンス キャンバス".toList 2 5 =
      [Item.highlight "アドバ".toList "ンス".toList "rgba(255, 99, 132, 0.6)" "あう".toList,
       Item.raw [' '],
       Item.highlight "キャン".toList "バス".toList "rgba(255, 99, 132, 0.6)" "あう".toList] := by
  decide

/-- Claim C5: in every run, each word index is recorded by the selector at
most once — the indices of all accepted pairs, with multiplicity, contain no
duplicate — so no word is highlighted twice or given two colors. -/
theorem c5_at_most_one_assignment (words : List (List Char)) (m d : Nat) :
    (assignedIndices (selectPairs (findRhymes words m d))).Nodup := by
  have hne : ∀ r ∈ findRhymes words m d, r.index1 ≠ r.index2 := fun r hr =>
    Nat.ne_of_lt (findRhymes_spec hr).1
  exact (selectAux_invariant (findRhymes words m d) [] 0 hne).1

/-- Claim C6: every candidate emitted by `findRhymes` is well-formed:
`index1 < index2`, the distance is at most `maxDistance`, the match length is
at least `minLength` and at most either signature length, and the matched
vowels are exactly the common trailing run of both signatures of that length,
in forward order. -/
theorem c6_candidate_wellformed (words : List (List Char)) (m d : Nat) (r : Rhyme)
    (h : r ∈ findRhymes words m d) :
    r.index1 < r.index2 ∧ r.index2 - r.index1 ≤ d ∧ m ≤ r.rhymeLength ∧
    r.rhymeLength ≤ (getVowelPhonetic (words.getD r.index1 [])).length ∧
    r.rhymeLength ≤ (getVowelPhonetic (words.getD r.index2 [])).length ∧
    r.rhymeVowels.length = r.rhymeLength ∧
    r.rhymeVowels = (getVowelPhonetic (words.getD r.index1 [])).drop
      ((getVowelPhonetic (words.getD r.index1 [])).length - r.rhymeLength) ∧
    r.rhymeVowels = (getVowelPhonetic (words.getD r.index2 [])).drop
      ((getVowelPhonetic (words.getD r.index2 [])).length - r.rhymeLength) := by
  obtain ⟨h1, h2, h3, h4, h5, h6, h7, h8⟩ := findRhymes_spec h
  have hsuf1 : r.rhymeVowels <:+ getVowelPhonetic (words.getD r.index1 []) := by
    rw [h7]; exact commonSuffix_suf_left _ _
  have hsuf2 : r.rhymeVowels <:+ getVowelPhonetic (words.getD r.index2 []) := by
    rw [h7]; exact commonSuffix_suf_right _ _
  refine ⟨h1, by omega, h6, ?_, ?_, h8.symm, ?_, ?_⟩
  · rw [h8]; exact hsuf1.length_le
  · rw [h8]; exact hsuf2.length_le
  · have hd := eq_drop_of_suf hsuf1
    rwa [← h8] at hd
  · have hd := eq_drop_of_suf hsuf2
    rwa [← h8] at hd

/-- Witness for `c6_candidate_wellformed` on the two-word input かさ/たさ. -/
theorem c6_candidate_wellformed_witness :
    (⟨0, 1, 2, "ああ".toList⟩ : Rhyme) ∈
      findRhymes ["かさ".toList, "たさ".toList] 2 5 ∧
    ((0 : Nat) < 1 ∧ (1 : Nat) - 0 ≤ 5 ∧ (2 : Nat) ≤ 2 ∧
     2 ≤ (getVowelPhonetic "かさ".toList).length ∧
     2 ≤ (getVowelPhonetic "たさ".toList).length ∧
     ("ああ".toList).length = 2 ∧
     "ああ".toList = (getVowelPhonetic "かさ".toList).drop
       ((getVowelPhonetic "かさ".toList).length - 2) ∧
     "ああ".toList = (getVowelPhonetic "たさ".toList).drop
       ((getVowelPhonetic "たさ".toList).length - 2)) :=
  ⟨by decide,
   c6_candidate_wellformed ["かさ".toList, "たさ".toList] 2 5
     ⟨0, 1, 2, "ああ".toList⟩ (by decide)⟩

/-- Claim C7 (counterexample): for the whitespace-only separator input
`"   \n\t  "` the output is empty — the early return fires before rendering —
not the separator text with translated newlines that the claim demands. -/
theorem c7_whitespace_only_counterexample :
    analyzeRhymes "   \n\t  ".toList 2 5 = [] ∧
    sepItems "   \n\t  ".toList ≠ [] := by
  decide

/-- Claim C7 (amended): for input consisting only of separator characters the
word list is empty and no candidate is produced; the output is empty when the
input is whitespace-only (the trim guard fires), and otherwise — when the
separators include punctuation — it is exactly the separator text with every
newline translated to the line-break marker and no highlight markers. -/
theorem c7_separator_only_amended (t : List Char) (m d : Nat)
    (h : ∀ c ∈ t, isSep c = true) :
    tokenize t = [] ∧ findRhymes (tokenize t) m d = [] ∧
    analyzeRhymes t m d = if (jsTrim t).isEmpty then [] else sepItems t := by
  have ht : tokenize t = [] := tokenize_all_sep t h
  refine ⟨ht, by rw [ht]; exact findRhymes_nil m d, ?_⟩
  by_cases he : (jsTrim t).isEmpty
  · simp [analyzeRhymes, analyzeRhymesSt, he]
  · have hne : jsTrim t ≠ [] := fun hnil => he (by simp [hnil])
    have htne : t ≠ [] := by rintro rfl; exact hne rfl
    rw [analyzeRhymes_eq_render m d hne, segments_all_sep h htne, if_neg he]
    simp [renderAux, ht]

/-- Witness for `c7_separator_only_amended` at the punctuation separator
input `、\n。`, whose trim is nonempty. -/
theorem c7_separator_only_amended_witness :
    (∀ c ∈ "、\n。".toList, isSep c = true) ∧
    (tokenize "、\n。".toList = [] ∧
     findRhymes (tokenize "、\n。".toList) 2 5 = [] ∧
     analyzeRhymes "、\n。".toList 2 5 =
       if (jsTrim "、\n。".toList).isEmpty then [] else sepItems "、\n。".toList) :=
  ⟨by decide, c7_separator_only_amended "、\n。".toList 2 5 (by decide)⟩

/-- Claim C8: empty or whitespace-only input yields empty output, with no
markup and no error. -/
theorem c8_blank_input_empty_output (t : List Char) (m d : Nat)
    (h : ∀ c ∈ t, isJsSpace c = true) :
    analyzeRhymes t m d = [] := by
  have he : (jsTrim t).isEmpty = true := by rw [jsTrim_all_space h]; rfl
  simp [analyzeRhymes, analyzeRhymesSt, he]

/-- Witness for `c8_blank_input_empty_output` at a whitespace-only input. -/
theorem c8_blank_input_empty_output_witness :
    (∀ c ∈ "  \t\n ".toList, isJsSpace c = true) ∧
    analyzeRhymes "  \t\n ".toList 2 5 = [] :=
  ⟨by decide, c8_blank_input_empty_output "  \t\n ".toList 2 5 (by decide)⟩

/-- Claim C9: the emitted output is a pure function of the inputs — it does
not depend on the palette cursor left over from a previous run, since the
cursor is reset to 0 at the start of every run — and the k-th accepted pair
of a run receives palette color k mod 8. -/
theorem c9_pure_deterministic_palette :
    (∀ (s₁ s₂ : Nat) (text : List Char) (m d : Nat),
      (analyzeRhymesSt s₁ text m d).1 = (analyzeRhymesSt s₂ text m d).1) ∧
    (∀ (rhymes : List Rhyme) (k : Nat), k < (selectPairs rhymes).length →
      ((selectPairs rhymes).getD k noAccepted).color = COLORS.getD (k % 8) "") := by
  constructor
  · intro s₁ s₂ text m d
    by_cases h : (jsTrim text).isEmpty <;> simp [analyzeRhymesSt, h]
  · intro rhymes k hk
    have h0 := selectAux_color rhymes [] 0 k hk
    rw [Nat.zero_add] at h0
    exact h0

/-- Witness for `c9_pure_deterministic_palette`: two runs from different
leftover cursor states agree, and the first accepted pair receives
`COLORS[0]`. -/
theorem c9_pure_deterministic_palette_witness :
    (analyzeRhymesSt 3 "かさ たさ".toList 2 5).1 =
      (analyzeRhymesSt 7 "かさ たさ".toList 2 5).1 ∧
    (0 < (selectPairs [⟨0, 1, 2, "ああ".toList⟩]).length ∧
     ((selectPairs [⟨0, 1, 2, "ああ".toList⟩]).getD 0 noAccepted).color =
       COLORS.getD (0 % 8) "") :=
  ⟨c9_pure_deterministic_palette.1 3 7 "かさ たさ".toList 2 5,
   by decide,
   c9_pure_deterministic_palette.2 [⟨0, 1, 2, "ああ".toList⟩] 0 (by decide)⟩

/-- Claim C10 (counterexample): when a segment carries more than one word the
renderer's counter misaddresses, and the stored suffix length can exceed the
rendered segment's character count: on `ああああ、ああああ x` the word `x`
(segment length 1) is highlighted with the four-symbol suffix `ああああ` —
the split index 1 − 4 clamps to 0 and the whole segment lands in the
highlighted tail. -/
theorem c10_clamp_counterexample :
    Item.highlight [] ['x'] "rgba(255, 99, 132, 0.6)" "ああああ".toList ∈
      analyzeRhymes "ああああ、ああああ x".toList 2 5 ∧
    List.length ['x'] < ("ああああ".toList).length := by
  decide

/-- Claim C10 (amended): a signature is never longer than its word — each
character emits at most one symbol — so every candidate's matched-suffix
length is bounded by the character count of both indexed words; and the
renderer's clamped split always reconstructs the segment exactly
(prefix ++ tail = segment), though when the counter misaddresses a shorter
segment the split index clamps at 0. -/
theorem c10_split_safety_amended :
    (∀ w : List Char, (getVowelPhonetic w).length ≤ w.length) ∧
    (∀ (words : List (List Char)) (m d : Nat) (r : Rhyme),
      r ∈ findRhymes words m d →
      r.rhymeVowels.length ≤ (words.getD r.index1 []).length ∧
      r.rhymeVowels.length ≤ (words.getD r.index2 []).length) ∧
    (∀ seg vowels : List Char,
      seg.take (seg.length - vowels.length) ++
        seg.drop (seg.length - vowels.length) = seg) := by
  refine ⟨getVowelPhonetic_length_le, ?_, fun seg vowels => List.take_append_drop _ _⟩
  intro words m d r h
  obtain ⟨h1, h2, h3, h4, h5, h6, h7, h8⟩ := findRhymes_spec h
  constructor
  · have hb : r.rhymeVowels.length ≤
        (getVowelPhonetic (words.getD r.index1 [])).length := by
      rw [h7]; exact length_commonSuffix_left _ _
    exact le_trans hb (getVowelPhonetic_length_le _)
  · have hb : r.rhymeVowels.length ≤
        (getVowelPhonetic (words.getD r.index2 [])).length := by
      rw [h7]; exact length_commonSuffix_right _ _
    exact le_trans hb (getVowelPhonetic_length_le _)

/-- Witness for `c10_split_safety_amended` at a concrete signature, candidate
and split. -/
theorem c10_split_safety_amended_witness :
    ((getVowelPhonetic "かさ".toList).length ≤ ("かさ".toList).length) ∧
    ((⟨0, 1, 2, "ああ".toList⟩ : Rhyme) ∈
        findRhymes ["かさ".toList, "たさ".toList] 2 5 ∧
      (("ああ".toList).length ≤ ("かさ".toList).length ∧
       ("ああ".toList).length ≤ ("たさ".toList).length)) ∧
    ("かさ".toList.take (("かさ".toList).length - ("ああ".toList).length) ++
       "かさ".toList.drop (("かさ".toList).length - ("ああ".toList).length) =
       "かさ".toList) :=
  ⟨c10_split_safety_amended.1 "かさ".toList,
   ⟨by decide,
    c10_split_safety_amended.2.1 ["かさ".toList, "たさ".toList] 2 5
      ⟨0, 1, 2, "ああ".toList⟩ (by decide)⟩,
   c10_split_safety_amended.2.2 "かさ".toList "ああ".toList⟩

end RhymeViewer
